import Mathlib

/-!
# Snapshot keys and the reload endpoint of the snapshot tracker

A shallow embedding of

* `internal/index/types.go`: `SnapshotKey`, `NewSnapshotKey`, `SnapshotKey.Slot`;
* `internal/cmd/tracker/tracker.go`: the `/reload` HTTP handler of `run` and the
  buffered channel `onReload` it sends on.

Go's `uint64` is a natural number below `2^64`; every operation that can leave that
range reduces modulo `2^64` explicitly.  Go's `string` is `String`.
-/

namespace Index

/-- The number of values of a Go `uint64`. -/
def uint64Size : Nat := 2 ^ 64

/-- The `uint64` with all 64 bits set, `math.MaxUint64`. -/
def maxUint64 : Nat := 2 ^ 64 - 1

/-- Go's unary `^x` on a `uint64`: by the language definition `^x` is `m ^ x` (exclusive or)
with `m` the value that has all bits set. -/
def complement64 (x : Nat) : Nat := (x ^^^ maxUint64) % uint64Size

/-- The struct `SnapshotKey` of `types.go`; the two slot fields are `uint64`. -/
structure SnapshotKey where
  Group : String
  Target : String
  InverseSlot : Nat
  BaseSlot : Nat
  deriving DecidableEq, Repr

/-- The range of the `uint64` fields of a `SnapshotKey`. -/
def SnapshotKey.InRange (k : SnapshotKey) : Prop :=
  k.InverseSlot < uint64Size ∧ k.BaseSlot < uint64Size

instance (k : SnapshotKey) : Decidable k.InRange := by
  unfold SnapshotKey.InRange; exact inferInstance

/-- `NewSnapshotKey` of `types.go`. -/
def NewSnapshotKey (group : String) (target : String) (slot : Nat) (base_slot : Nat) :
    SnapshotKey :=
  { Group := group
    Target := target
    InverseSlot := complement64 slot
    BaseSlot := base_slot }

/-- The method `SnapshotKey.Slot` of `types.go`. -/
def SnapshotKey.Slot (k : SnapshotKey) : Nat := complement64 k.InverseSlot

/-- Modelled from the spec: the ascending order on keys that the registry iterates in
(section 3, "mapping from SnapshotKey to SnapshotEntry, ordered by key"), the lexicographic
order on `(Group, Target, InverseSlot, BaseSlot)`; unsigned comparison on the two slot
fields.  The registry is not part of the sources; only the key type is. -/
def keyLt (a b : SnapshotKey) : Prop :=
  a.Group < b.Group ∨ (a.Group = b.Group ∧
    (a.Target < b.Target ∨ (a.Target = b.Target ∧
      (a.InverseSlot < b.InverseSlot ∨ (a.InverseSlot = b.InverseSlot ∧
        a.BaseSlot < b.BaseSlot)))))

instance (a b : SnapshotKey) : Decidable (keyLt a b) := by
  unfold keyLt; exact inferInstance

/-- The fields of a key as a point of the lexicographic product, in the order of the
struct declaration. -/
def keyTuple (k : SnapshotKey) : String ×ₗ String ×ₗ Nat ×ₗ Nat :=
  toLex (k.Group, toLex (k.Target, toLex (k.InverseSlot, k.BaseSlot)))

/-- The non-strict companion of `keyLt`. -/
def keyLe (a b : SnapshotKey) : Prop := keyLt a b ∨ a = b

instance (a b : SnapshotKey) : Decidable (keyLe a b) := by
  unfold keyLe; exact inferInstance

/-- The first key of a list in the order `keyLt`: what an ascending iteration over the
keys visits first. -/
def minKey : List SnapshotKey → Option SnapshotKey
  | [] => none
  | k :: ks =>
    match minKey ks with
    | none => some k
    | some m => if keyLt m k then some m else some k

/-- The keys `NewSnapshotKey` builds for one group and target from a list of
`(slot, base_slot)` pairs. -/
def keysOf (group target : String) (ps : List (Nat × Nat)) : List SnapshotKey :=
  ps.map (fun p => NewSnapshotKey group target p.1 p.2)

end Index

namespace Tracker

/-- The signals `run` names: `syscall.SIGHUP`, `syscall.SIGINT`, `syscall.SIGTERM`. -/
inductive Signal where
  | SIGHUP
  | SIGINT
  | SIGTERM
  deriving DecidableEq, Repr

/-- A buffered Go channel of `os.Signal`: its capacity and the values waiting in its
buffer, oldest first. -/
structure Chan where
  cap : Nat
  buf : List Signal
  deriving DecidableEq, Repr

/-- The Go expression `make(chan os.Signal, n)`. -/
def makeChan (n : Nat) : Chan := { cap := n, buf := [] }

/-- The Go statement `c <- v` on a channel nobody receives from (`run` has no receive on
`onReload`): the send proceeds exactly when the buffer has room, and otherwise the
goroutine stays parked at the send, which is `none`. -/
def Chan.send (c : Chan) (v : Signal) : Option Chan :=
  if c.buf.length < c.cap then some { c with buf := c.buf ++ [v] } else none

/-- Delivery of a signal by package `os/signal` to a channel registered with
`signal.Notify`: a send that never blocks; the signal is dropped when the buffer is
full. -/
def Chan.notify (c : Chan) (v : Signal) : Chan :=
  if c.buf.length < c.cap then { c with buf := c.buf ++ [v] } else c

/-- The constant `http.MethodPost`. -/
def MethodPost : String := "POST"

/-- The constant `http.StatusOK`. -/
def StatusOK : Nat := 200

/-- The constant `http.StatusMethodNotAllowed`. -/
def StatusMethodNotAllowed : Nat := 405

/-- What a handler answers through `http.Error(wr, error, code)`: the status code and the
error text written as the body. -/
structure Reply where
  code : Nat
  error : String
  deriving DecidableEq, Repr

/-- The call `http.Error(wr, error, code)`. -/
def httpError (error : String) (code : Nat) : Reply := { code := code, error := error }

/-- The channel `onReload` as `run` creates it: `make(chan os.Signal, 1)`. -/
def onReloadInit : Chan := makeChan 1

/-- The handler `run` installs on `/reload`, as a function of the channel `onReload` and
of `req.Method`.  The result is the channel after the handler and its reply; `none` is a
handler parked at `onReload <- syscall.SIGHUP`, which has written no reply. -/
def reloadHandler (onReload : Chan) (method : String) : Option (Chan × Reply) :=
  if method ≠ MethodPost then
    some (onReload, httpError "method not allowed" StatusMethodNotAllowed)
  else
    match onReload.send Signal.SIGHUP with
    | none => none
    | some ch => some (ch, httpError "reloaded" StatusOK)

/-- Everything in `run` that touches `onReload`: a request to `/reload`, or a `SIGHUP`
delivered through `signal.Notify(onReload, syscall.SIGHUP)`. -/
inductive Event where
  | request (method : String)
  | sighup
  deriving DecidableEq, Repr

/-- The channel `onReload` after one event; a handler that parks leaves it as it was. -/
def step (onReload : Chan) : Event → Chan
  | Event.request method =>
    match reloadHandler onReload method with
    | some (ch, _) => ch
    | none => onReload
  | Event.sighup => onReload.notify Signal.SIGHUP

/-- The channel `onReload` after a sequence of events. -/
def runEvents (onReload : Chan) (evs : List Event) : Chan := evs.foldl step onReload

end Tracker

namespace Index

/-! ## The complement on 64 bits -/

theorem xor_maxUint64 (x : Nat) (hx : x < uint64Size) : x ^^^ maxUint64 = maxUint64 - x := by
  unfold uint64Size at hx
  unfold maxUint64
  apply Nat.eq_of_testBit_eq
  intro i
  have h : 2 ^ 64 - 1 - x = 2 ^ 64 - (x + 1) := by omega
  rw [h, Nat.testBit_two_pow_sub_succ hx, Nat.testBit_xor, Nat.testBit_two_pow_sub_one]
  by_cases hi : i < 64
  · simp [hi]
  · have hlt : x < 2 ^ i :=
      lt_of_lt_of_le hx (Nat.pow_le_pow_right (by decide) (by omega))
    simp [hi, Nat.testBit_lt_two_pow hlt]

theorem complement64_eq (x : Nat) (hx : x < uint64Size) : complement64 x = maxUint64 - x := by
  unfold complement64
  rw [xor_maxUint64 x hx]
  apply Nat.mod_eq_of_lt
  unfold maxUint64 uint64Size
  omega

theorem complement64_lt (x : Nat) : complement64 x < uint64Size := by
  unfold complement64
  exact Nat.mod_lt _ (by unfold uint64Size; positivity)

theorem complement64_complement64 (x : Nat) (hx : x < uint64Size) :
    complement64 (complement64 x) = x := by
  rw [complement64_eq _ (complement64_lt x), complement64_eq x hx]
  unfold maxUint64
  unfold uint64Size at hx
  omega

theorem complement64_injective (x y : Nat) (hx : x < uint64Size) (hy : y < uint64Size)
    (h : complement64 x = complement64 y) : x = y := by
  rw [← complement64_complement64 x hx, ← complement64_complement64 y hy, h]

theorem complement64_lt_iff (x y : Nat) (hx : x < uint64Size) (hy : y < uint64Size) :
    complement64 x < complement64 y ↔ y < x := by
  rw [complement64_eq x hx, complement64_eq y hy]
  unfold maxUint64
  unfold uint64Size at hx hy
  omega

/-! ## Round trip and arithmetic of the key -/

/-- C1: for every group, target and every 64-bit slot and base slot,
`NewSnapshotKey(group, target, slot, base_slot).Slot()` equals `slot`. -/
theorem newSnapshotKey_slot_roundtrip (group target : String) (slot base_slot : Nat)
    (hs : slot < uint64Size) :
    (NewSnapshotKey group target slot base_slot).Slot = slot := by
  unfold SnapshotKey.Slot NewSnapshotKey
  exact complement64_complement64 slot hs

theorem newSnapshotKey_slot_roundtrip_witness :
    (NewSnapshotKey "mainnet" "full" 120 100).Slot = 120 :=
  newSnapshotKey_slot_roundtrip "mainnet" "full" 120 100 (by decide)

/-- C8: for every 64-bit slot the `InverseSlot` of `NewSnapshotKey(g, t, slot, b)` is
`2^64 - 1 - slot`, computed without wrap-around (slot 0 gives `2^64 - 1`, slot `2^64 - 1`
gives 0), and `Group`, `Target`, `BaseSlot` are the arguments unchanged. -/
theorem newSnapshotKey_fields (g t : String) (slot b : Nat) (hs : slot < uint64Size) :
    (NewSnapshotKey g t slot b).InverseSlot = 2 ^ 64 - 1 - slot ∧
    (NewSnapshotKey g t slot b).InverseSlot + slot = 2 ^ 64 - 1 ∧
    (NewSnapshotKey g t 0 b).InverseSlot = 2 ^ 64 - 1 ∧
    (NewSnapshotKey g t (2 ^ 64 - 1) b).InverseSlot = 0 ∧
    (NewSnapshotKey g t slot b).Group = g ∧
    (NewSnapshotKey g t slot b).Target = t ∧
    (NewSnapshotKey g t slot b).BaseSlot = b := by
  have h := complement64_eq slot hs
  have h0 := complement64_eq 0 (by decide)
  have hm := complement64_eq (2 ^ 64 - 1) (by decide)
  unfold maxUint64 at h h0 hm
  unfold uint64Size at hs
  refine ⟨h, ?_, h0, ?_, rfl, rfl, rfl⟩
  · show complement64 slot + slot = 2 ^ 64 - 1
    omega
  · show complement64 (2 ^ 64 - 1) = 0
    omega

theorem newSnapshotKey_fields_witness :
    (NewSnapshotKey "mainnet" "full" 9 3).InverseSlot = 2 ^ 64 - 1 - 9 ∧
    (NewSnapshotKey "mainnet" "full" 9 3).BaseSlot = 3 :=
  ⟨(newSnapshotKey_fields "mainnet" "full" 9 3 (by decide)).1,
   (newSnapshotKey_fields "mainnet" "full" 9 3 (by decide)).2.2.2.2.2.2⟩

/-- C5: for every `SnapshotKey` `k` whose fields are any 64-bit values,
`NewSnapshotKey(k.Group, k.Target, k.Slot(), k.BaseSlot)` is `k`: complementing twice gives
back `InverseSlot` and the other fields are untouched. -/
theorem newSnapshotKey_of_slot (k : SnapshotKey) (hk : k.InRange) :
    NewSnapshotKey k.Group k.Target k.Slot k.BaseSlot = k := by
  cases k with
  | mk g t i b =>
    unfold NewSnapshotKey SnapshotKey.Slot
    simp only [SnapshotKey.mk.injEq, true_and, and_true]
    exact complement64_complement64 i hk.1

theorem newSnapshotKey_of_slot_witness :
    NewSnapshotKey "mainnet" "full"
      (SnapshotKey.Slot { Group := "mainnet", Target := "full", InverseSlot := 41, BaseSlot := 7 })
      7 = { Group := "mainnet", Target := "full", InverseSlot := 41, BaseSlot := 7 } :=
  newSnapshotKey_of_slot
    { Group := "mainnet", Target := "full", InverseSlot := 41, BaseSlot := 7 }
    ⟨by decide, by decide⟩

/-- C6: `NewSnapshotKey(g1, t1, s1, b1) = NewSnapshotKey(g2, t2, s2, b2)` exactly when
`g1 = g2`, `t1 = t2`, `s1 = s2` and `b1 = b2` (64-bit slots); so two snapshots at one slot
with different base slots get distinct keys. -/
theorem newSnapshotKey_injective (g1 t1 g2 t2 : String) (s1 b1 s2 b2 : Nat)
    (h1 : s1 < uint64Size) (h2 : s2 < uint64Size) :
    (NewSnapshotKey g1 t1 s1 b1 = NewSnapshotKey g2 t2 s2 b2 ↔
      g1 = g2 ∧ t1 = t2 ∧ s1 = s2 ∧ b1 = b2) ∧
    (b1 ≠ b2 → NewSnapshotKey g1 t1 s1 b1 ≠ NewSnapshotKey g1 t1 s1 b2) := by
  have key : NewSnapshotKey g1 t1 s1 b1 = NewSnapshotKey g2 t2 s2 b2 ↔
      g1 = g2 ∧ t1 = t2 ∧ s1 = s2 ∧ b1 = b2 := by
    constructor
    · intro h
      unfold NewSnapshotKey at h
      simp only [SnapshotKey.mk.injEq] at h
      exact ⟨h.1, h.2.1, complement64_injective s1 s2 h1 h2 h.2.2.1, h.2.2.2⟩
    · rintro ⟨rfl, rfl, rfl, rfl⟩
      rfl
  refine ⟨key, ?_⟩
  intro hb h
  unfold NewSnapshotKey at h
  simp only [SnapshotKey.mk.injEq] at h
  exact hb h.2.2.2

theorem newSnapshotKey_injective_witness :
    NewSnapshotKey "mainnet" "full" 120 0 ≠ NewSnapshotKey "mainnet" "full" 120 100 :=
  (newSnapshotKey_injective "mainnet" "full" "mainnet" "full" 120 0 120 100
    (by decide) (by decide)).2 (by decide)

end Index

namespace Index

/-! ## Order reversal -/

/-- C2: for 64-bit slots `s1`, `s2` and any group, target and base slots, `s1 < s2` holds
exactly when the `InverseSlot` of the key of `s2` is below the `InverseSlot` of the key of
`s1`; so ascending `InverseSlot` is descending `Slot()`, the extremes 0 and `2^64 - 1`
included. -/
theorem inverseSlot_order_reversal (g t : String) (s1 s2 b1 b2 : Nat)
    (h1 : s1 < uint64Size) (h2 : s2 < uint64Size) :
    (s1 < s2 ↔
      (NewSnapshotKey g t s2 b2).InverseSlot < (NewSnapshotKey g t s1 b1).InverseSlot) ∧
    ((NewSnapshotKey g t s2 b2).InverseSlot < (NewSnapshotKey g t s1 b1).InverseSlot ↔
      (NewSnapshotKey g t s1 b1).Slot < (NewSnapshotKey g t s2 b2).Slot) := by
  have hinv : (NewSnapshotKey g t s2 b2).InverseSlot < (NewSnapshotKey g t s1 b1).InverseSlot
      ↔ s1 < s2 := complement64_lt_iff s2 s1 h2 h1
  have e1 : (NewSnapshotKey g t s1 b1).Slot = s1 := complement64_complement64 s1 h1
  have e2 : (NewSnapshotKey g t s2 b2).Slot = s2 := complement64_complement64 s2 h2
  rw [e1, e2]
  exact ⟨hinv.symm, hinv⟩

theorem inverseSlot_order_reversal_witness :
    (0 < 2 ^ 64 - 1 ↔
      (NewSnapshotKey "mainnet" "full" (2 ^ 64 - 1) 0).InverseSlot <
        (NewSnapshotKey "mainnet" "full" 0 0).InverseSlot) ∧
    ((NewSnapshotKey "mainnet" "full" (2 ^ 64 - 1) 0).InverseSlot <
        (NewSnapshotKey "mainnet" "full" 0 0).InverseSlot ↔
      (NewSnapshotKey "mainnet" "full" 0 0).Slot <
        (NewSnapshotKey "mainnet" "full" (2 ^ 64 - 1) 0).Slot) :=
  inverseSlot_order_reversal "mainnet" "full" 0 (2 ^ 64 - 1) 0 0 (by decide) (by decide)

/-- C9: `Slot()` depends only on `InverseSlot`: two keys with equal `InverseSlot` have
equal `Slot()` whatever their `Group`, `Target` and `BaseSlot`; and on 64-bit values
`Slot()` is injective in `InverseSlot`. -/
theorem slot_depends_only_on_inverseSlot (k1 k2 : SnapshotKey) :
    (k1.InverseSlot = k2.InverseSlot → k1.Slot = k2.Slot) ∧
    (k1.InverseSlot < uint64Size → k2.InverseSlot < uint64Size →
      k1.Slot = k2.Slot → k1.InverseSlot = k2.InverseSlot) := by
  constructor
  · intro h
    unfold SnapshotKey.Slot
    rw [h]
  · intro h1 h2 h
    exact complement64_injective _ _ h1 h2 h

theorem slot_depends_only_on_inverseSlot_witness :
    SnapshotKey.Slot { Group := "mainnet", Target := "full", InverseSlot := 41, BaseSlot := 7 } =
      SnapshotKey.Slot { Group := "testnet", Target := "inc", InverseSlot := 41, BaseSlot := 9 } ∧
    (SnapshotKey.Slot { Group := "mainnet", Target := "full", InverseSlot := 41, BaseSlot := 7 } =
      SnapshotKey.Slot { Group := "testnet", Target := "inc", InverseSlot := 41, BaseSlot := 9 } →
      (41 : Nat) = 41) :=
  ⟨(slot_depends_only_on_inverseSlot
      { Group := "mainnet", Target := "full", InverseSlot := 41, BaseSlot := 7 }
      { Group := "testnet", Target := "inc", InverseSlot := 41, BaseSlot := 9 }).1 rfl,
   (slot_depends_only_on_inverseSlot
      { Group := "mainnet", Target := "full", InverseSlot := 41, BaseSlot := 7 }
      { Group := "testnet", Target := "inc", InverseSlot := 41, BaseSlot := 9 }).2
      (by decide) (by decide)⟩

end Index

namespace Index

/-! ## The key order -/

theorem keyLt_iff_keyTuple (a b : SnapshotKey) : keyLt a b ↔ keyTuple a < keyTuple b := by
  unfold keyLt keyTuple
  simp only [Prod.Lex.lt_iff, ofLex_toLex]

theorem keyTuple_injective (a b : SnapshotKey) (h : keyTuple a = keyTuple b) : a = b := by
  cases a
  cases b
  unfold keyTuple at h
  simp only [EmbeddingLike.apply_eq_iff_eq, Prod.mk.injEq] at h
  simp only [SnapshotKey.mk.injEq]
  exact h

theorem keyLe_iff_keyTuple (a b : SnapshotKey) : keyLe a b ↔ keyTuple a ≤ keyTuple b := by
  unfold keyLe
  rw [keyLt_iff_keyTuple, le_iff_lt_or_eq]
  constructor
  · rintro (h | h)
    · exact Or.inl h
    · exact Or.inr (by rw [h])
  · rintro (h | h)
    · exact Or.inl h
    · exact Or.inr (keyTuple_injective a b h)

theorem keyLt_irrefl (a : SnapshotKey) : ¬ keyLt a a := by
  rw [keyLt_iff_keyTuple]
  exact lt_irrefl _

theorem keyLe_trans (a b c : SnapshotKey) (h1 : keyLe a b) (h2 : keyLe b c) : keyLe a c := by
  rw [keyLe_iff_keyTuple] at *
  exact le_trans h1 h2

theorem keyLe_of_not_keyLt (a b : SnapshotKey) (h : ¬ keyLt a b) : keyLe b a := by
  rw [keyLt_iff_keyTuple] at h
  rw [keyLe_iff_keyTuple]
  exact not_lt.mp h

theorem keyLe_antisymm (a b : SnapshotKey) (h1 : keyLe a b) (h2 : keyLe b a) : a = b := by
  rw [keyLe_iff_keyTuple] at *
  exact keyTuple_injective a b (le_antisymm h1 h2)

theorem keyLt_of_keyLe_of_ne (a b : SnapshotKey) (h : keyLe a b) (hne : a ≠ b) : keyLt a b := by
  rcases h with h | h
  · exact h
  · exact absurd h hne

/-- Between two keys of one group and target the order compares the slots downwards and
then the base slots upwards. -/
theorem keyLt_newSnapshotKey_iff (g t : String) (s1 b1 s2 b2 : Nat)
    (h1 : s1 < uint64Size) (h2 : s2 < uint64Size) :
    keyLt (NewSnapshotKey g t s1 b1) (NewSnapshotKey g t s2 b2) ↔
      s2 < s1 ∨ (s1 = s2 ∧ b1 < b2) := by
  unfold keyLt NewSnapshotKey
  simp only [lt_irrefl, true_and, false_or]
  rw [complement64_lt_iff s1 s2 h1 h2]
  constructor
  · rintro (h | ⟨h, hb⟩)
    · exact Or.inl h
    · exact Or.inr ⟨complement64_injective s1 s2 h1 h2 h, hb⟩
  · rintro (h | ⟨h, hb⟩)
    · exact Or.inl h
    · exact Or.inr ⟨by rw [h], hb⟩

theorem minKey_isSome (l : List SnapshotKey) (hne : l ≠ []) : ∃ m, minKey l = some m := by
  cases l with
  | nil => exact absurd rfl hne
  | cons k ks =>
    unfold minKey
    cases minKey ks with
    | none => exact ⟨k, rfl⟩
    | some m =>
      by_cases h : keyLt m k
      · exact ⟨m, by simp [h]⟩
      · exact ⟨k, by simp [h]⟩

theorem minKey_spec (l : List SnapshotKey) (m : SnapshotKey) (h : minKey l = some m) :
    m ∈ l ∧ ∀ k ∈ l, keyLe m k := by
  induction l generalizing m with
  | nil => simp [minKey] at h
  | cons k ks ih =>
    unfold minKey at h
    cases hks : minKey ks with
    | none =>
      rw [hks] at h
      simp only [Option.some.injEq] at h
      subst h
      cases ks with
      | nil =>
        refine ⟨List.mem_cons_self _ _, ?_⟩
        intro k2 hk2
        simp only [List.mem_singleton] at hk2
        exact Or.inr hk2.symm
      | cons k2 ks2 =>
        obtain ⟨m2, hm2⟩ := minKey_isSome (k2 :: ks2) (by simp)
        rw [hm2] at hks
        cases hks
    | some m2 =>
      rw [hks] at h
      obtain ⟨hmem, hle⟩ := ih m2 hks
      by_cases hlt : keyLt m2 k
      · simp only [hlt, if_true, Option.some.injEq] at h
        subst h
        refine ⟨List.mem_cons_of_mem _ hmem, ?_⟩
        intro k2 hk2
        rcases List.mem_cons.mp hk2 with rfl | hk2
        · exact Or.inl hlt
        · exact hle k2 hk2
      · simp only [hlt, if_false, Option.some.injEq] at h
        subst h
        refine ⟨List.mem_cons_self _ _, ?_⟩
        intro k2 hk2
        rcases List.mem_cons.mp hk2 with rfl | hk2
        · exact Or.inr rfl
        · exact keyLe_trans _ _ _ (keyLe_of_not_keyLt _ _ hlt) (hle k2 hk2)

end Index

namespace Index

/-! ## The newest snapshot is the smallest key -/

theorem mem_keysOf (g t : String) (ps : List (Nat × Nat)) (k : SnapshotKey)
    (hk : k ∈ keysOf g t ps) : ∃ p ∈ ps, k = NewSnapshotKey g t p.1 p.2 := by
  unfold keysOf at hk
  obtain ⟨p, hp, rfl⟩ := List.mem_map.mp hk
  exact ⟨p, hp, rfl⟩

theorem keysOf_mem (g t : String) (ps : List (Nat × Nat)) (p : Nat × Nat) (hp : p ∈ ps) :
    NewSnapshotKey g t p.1 p.2 ∈ keysOf g t ps := by
  unfold keysOf
  exact List.mem_map.mpr ⟨p, hp, rfl⟩

theorem slot_le_of_keyLe (g t : String) (s1 b1 s2 b2 : Nat)
    (h1 : s1 < uint64Size) (h2 : s2 < uint64Size)
    (h : keyLe (NewSnapshotKey g t s1 b1) (NewSnapshotKey g t s2 b2)) : s2 ≤ s1 := by
  rcases h with h | h
  · rcases (keyLt_newSnapshotKey_iff g t s1 b1 s2 b2 h1 h2).mp h with h | ⟨h, _⟩
    · exact le_of_lt h
    · exact le_of_eq h.symm
  · unfold NewSnapshotKey at h
    simp only [SnapshotKey.mk.injEq, true_and] at h
    exact le_of_eq (complement64_injective s1 s2 h1 h2 h.1).symm

theorem slot_of_smallest (g t : String) (ps : List (Nat × Nat))
    (hr : ∀ p ∈ ps, p.1 < uint64Size) (k : SnapshotKey) (hk : k ∈ keysOf g t ps)
    (hmin : ∀ k2 ∈ keysOf g t ps, keyLe k k2) :
    (∀ p ∈ ps, p.1 ≤ k.Slot) ∧ ∃ p ∈ ps, p.1 = k.Slot := by
  obtain ⟨p, hp, rfl⟩ := mem_keysOf g t ps k hk
  have hs : (NewSnapshotKey g t p.1 p.2).Slot = p.1 := complement64_complement64 p.1 (hr p hp)
  rw [hs]
  refine ⟨?_, p, hp, rfl⟩
  intro q hq
  exact slot_le_of_keyLe g t p.1 p.2 q.1 q.2 (hr p hp) (hr q hq)
    (hmin _ (keysOf_mem g t ps q hq))

theorem minKey_example (g t : String) (b5 b9 b3 b7 : Nat) :
    minKey (keysOf g t [(5, b5), (9, b9), (3, b3), (7, b7)]) =
      some (NewSnapshotKey g t 9 b9) := by
  have h3 : (3 : Nat) < uint64Size := by decide
  have h5 : (5 : Nat) < uint64Size := by decide
  have h7 : (7 : Nat) < uint64Size := by decide
  have h9 : (9 : Nat) < uint64Size := by decide
  simp [keysOf, minKey, keyLt_newSnapshotKey_iff g t _ _ _ _ h7 h3,
    keyLt_newSnapshotKey_iff g t _ _ _ _ h7 h9, keyLt_newSnapshotKey_iff g t _ _ _ _ h9 h5]

/-- C3: for every non-empty list of keys built by `NewSnapshotKey` with one group and target
(64-bit slots), a smallest key in the lexicographic order on
`(Group, Target, InverseSlot, BaseSlot)` exists, and every smallest key has `Slot()` equal to
the maximum slot of the list; for the slots `[5, 9, 3, 7]` the smallest key is the one with
`Slot() = 9`. -/
theorem smallest_key_is_newest (g t : String) (ps : List (Nat × Nat)) (hne : ps ≠ [])
    (hr : ∀ p ∈ ps, p.1 < uint64Size) :
    (∃ k, minKey (keysOf g t ps) = some k ∧ k ∈ keysOf g t ps ∧
      ∀ k2 ∈ keysOf g t ps, keyLe k k2) ∧
    (∀ k ∈ keysOf g t ps, (∀ k2 ∈ keysOf g t ps, keyLe k k2) →
      (∀ p ∈ ps, p.1 ≤ k.Slot) ∧ ∃ p ∈ ps, p.1 = k.Slot) ∧
    (∀ b5 b9 b3 b7 : Nat,
      minKey (keysOf g t [(5, b5), (9, b9), (3, b3), (7, b7)]) =
        some (NewSnapshotKey g t 9 b9) ∧
      (NewSnapshotKey g t 9 b9).Slot = 9) := by
  refine ⟨?_, ?_, ?_⟩
  · have hne2 : keysOf g t ps ≠ [] := by
      unfold keysOf
      simpa using hne
    obtain ⟨m, hm⟩ := minKey_isSome _ hne2
    exact ⟨m, hm, (minKey_spec _ m hm).1, (minKey_spec _ m hm).2⟩
  · intro k hk hmin
    exact slot_of_smallest g t ps hr k hk hmin
  · intro b5 b9 b3 b7
    exact ⟨minKey_example g t b5 b9 b3 b7, complement64_complement64 9 (by decide)⟩

theorem smallest_key_is_newest_witness :
    minKey (keysOf "mainnet" "full" [(5, 0), (9, 0), (3, 0), (7, 0)]) =
        some (NewSnapshotKey "mainnet" "full" 9 0) ∧
      (NewSnapshotKey "mainnet" "full" 9 0).Slot = 9 :=
  (smallest_key_is_newest "mainnet" "full" [(5, 0), (9, 0), (3, 0), (7, 0)]
    (by decide) (by decide)).2.2 0 0 0 0

end Index

namespace Index

/-! ## Iteration in ascending key order -/

theorem pairwise_keyLt_of_sorted (l : List SnapshotKey) (hnd : l.Nodup)
    (hs : l.Pairwise keyLe) : l.Pairwise keyLt := by
  have h := List.Pairwise.and hs hnd
  exact h.imp (fun hab => keyLt_of_keyLe_of_ne _ _ hab.1 hab.2)

theorem pairwise_pairs_of_sorted (g t : String) (ps : List (Nat × Nat))
    (hr : ∀ p ∈ ps, p.1 < uint64Size) (hnd : (keysOf g t ps).Nodup)
    (hs : (keysOf g t ps).Pairwise keyLe) :
    ps.Pairwise (fun p q => q.1 < p.1 ∨ (p.1 = q.1 ∧ p.2 < q.2)) := by
  have h := pairwise_keyLt_of_sorted _ hnd hs
  unfold keysOf at h
  rw [List.pairwise_map] at h
  refine List.Pairwise.imp_of_mem ?_ h
  intro p q hp hq hlt
  exact (keyLt_newSnapshotKey_iff g t p.1 p.2 q.1 q.2 (hr p hp) (hr q hq)).mp hlt

/-- C4, the claim as stated fails: the two keys of slot 5 with base slots 1 and 2 are
distinct and sorted ascending, and the slots visited are 5 and 5, not strictly
descending. -/
theorem strictly_descending_fails :
    (keysOf "mainnet" "full" [(5, 1), (5, 2)]).Nodup ∧
    (keysOf "mainnet" "full" [(5, 1), (5, 2)]).Pairwise keyLe ∧
    (keysOf "mainnet" "full" [(5, 1), (5, 2)]).map SnapshotKey.Slot = [5, 5] ∧
    ¬ ((keysOf "mainnet" "full" [(5, 1), (5, 2)]).map SnapshotKey.Slot).Chain'
        (fun x y => y < x) := by
  have h5 : (5 : Nat) < uint64Size := by decide
  have hlt : keyLt (NewSnapshotKey "mainnet" "full" 5 1) (NewSnapshotKey "mainnet" "full" 5 2) :=
    (keyLt_newSnapshotKey_iff "mainnet" "full" 5 1 5 2 h5 h5).mpr (Or.inr ⟨rfl, by decide⟩)
  have hslot : ∀ b, (NewSnapshotKey "mainnet" "full" 5 b).Slot = 5 :=
    fun _ => complement64_complement64 5 h5
  refine ⟨?_, ?_, ?_, ?_⟩
  · simp [keysOf, NewSnapshotKey]
  · simp only [keysOf, List.map_cons, List.map_nil, List.pairwise_cons, List.mem_singleton,
      forall_eq, List.not_mem_nil, false_implies, implies_true, List.Pairwise.nil, and_true]
    exact Or.inl hlt
  · simp only [keysOf, List.map_cons, List.map_nil, hslot]
  · simp only [keysOf, List.map_cons, List.map_nil, hslot]
    simp

/-- C4, amended: for every list of pairwise distinct keys built by `NewSnapshotKey` with one
group and target (64-bit slots), sorted ascending in the lexicographic order on
`(Group, Target, InverseSlot, BaseSlot)`, the slots visited never increase; of two keys the
later one has a strictly smaller slot, or the same slot and a strictly larger base slot;
and the slots are strictly descending when no two keys share a slot. -/
theorem sorted_keys_slots_descending (g t : String) (ps : List (Nat × Nat))
    (hr : ∀ p ∈ ps, p.1 < uint64Size) (hnd : (keysOf g t ps).Nodup)
    (hs : (keysOf g t ps).Pairwise keyLe) :
    (keysOf g t ps).Pairwise
      (fun a b => b.Slot < a.Slot ∨ (b.Slot = a.Slot ∧ a.BaseSlot < b.BaseSlot)) ∧
    ((keysOf g t ps).map SnapshotKey.Slot).Pairwise (fun x y => y ≤ x) ∧
    ((ps.map Prod.fst).Nodup →
      ((keysOf g t ps).map SnapshotKey.Slot).Pairwise (fun x y => y < x)) := by
  have h := pairwise_pairs_of_sorted g t ps hr hnd hs
  have hslot : ∀ p ∈ ps, (NewSnapshotKey g t p.1 p.2).Slot = p.1 :=
    fun p hp => complement64_complement64 p.1 (hr p hp)
  refine ⟨?_, ?_, ?_⟩
  · unfold keysOf
    rw [List.pairwise_map]
    refine List.Pairwise.imp_of_mem ?_ h
    intro p q hp hq hpq
    rw [hslot p hp, hslot q hq]
    rcases hpq with hpq | ⟨he, hb⟩
    · exact Or.inl hpq
    · exact Or.inr ⟨he.symm, hb⟩
  · unfold keysOf
    rw [List.pairwise_map, List.pairwise_map]
    refine List.Pairwise.imp_of_mem ?_ h
    intro p q hp hq hpq
    rw [hslot p hp, hslot q hq]
    rcases hpq with hpq | ⟨he, _⟩
    · exact le_of_lt hpq
    · exact le_of_eq he.symm
  · intro hd
    unfold List.Nodup at hd
    rw [List.pairwise_map] at hd
    have h2 := List.Pairwise.and h hd
    unfold keysOf
    rw [List.pairwise_map, List.pairwise_map]
    refine List.Pairwise.imp_of_mem ?_ h2
    intro p q hp hq hpq
    rw [hslot p hp, hslot q hq]
    rcases hpq.1 with hlt | ⟨he, _⟩
    · exact hlt
    · exact absurd he hpq.2

theorem sorted_keys_slots_descending_witness :
    (keysOf "mainnet" "full" [(9, 0), (7, 1), (7, 2), (5, 0)]).Pairwise
      (fun a b => b.Slot < a.Slot ∨ (b.Slot = a.Slot ∧ a.BaseSlot < b.BaseSlot)) ∧
    ((keysOf "mainnet" "full" [(9, 0), (7, 1), (7, 2), (5, 0)]).map
      SnapshotKey.Slot).Pairwise (fun x y => y ≤ x) :=
  have hr : ∀ p ∈ [((9 : Nat), (0 : Nat)), (7, 1), (7, 2), (5, 0)], p.1 < uint64Size := by
    decide
  have hnd : (keysOf "mainnet" "full" [(9, 0), (7, 1), (7, 2), (5, 0)]).Nodup := by
    decide
  have hs : (keysOf "mainnet" "full" [(9, 0), (7, 1), (7, 2), (5, 0)]).Pairwise keyLe := by
    have h5 : (5 : Nat) < uint64Size := by decide
    have h7 : (7 : Nat) < uint64Size := by decide
    have h9 : (9 : Nat) < uint64Size := by decide
    simp [keysOf, keyLe, keyLt_newSnapshotKey_iff _ _ _ _ _ _ h9 h7,
      keyLt_newSnapshotKey_iff _ _ _ _ _ _ h9 h5, keyLt_newSnapshotKey_iff _ _ _ _ _ _ h7 h7,
      keyLt_newSnapshotKey_iff _ _ _ _ _ _ h7 h5]
  ⟨(sorted_keys_slots_descending "mainnet" "full" [(9, 0), (7, 1), (7, 2), (5, 0)]
      hr hnd hs).1,
   (sorted_keys_slots_descending "mainnet" "full" [(9, 0), (7, 1), (7, 2), (5, 0)]
      hr hnd hs).2.1⟩

end Index

namespace Tracker

/-! ## The reload endpoint -/

/-- On the channel as `run` creates it a `POST` enqueues one `SIGHUP` and is answered. -/
theorem post_on_empty :
    reloadHandler onReloadInit "POST" =
      some ({ cap := 1, buf := [Signal.SIGHUP] }, { code := 200, error := "reloaded" }) := by
  decide

theorem post_on_full_parks (c : Chan) (hfull : c.cap ≤ c.buf.length) :
    reloadHandler c "POST" = none := by
  unfold reloadHandler Chan.send
  have h : ¬ c.buf.length < c.cap := by omega
  simp [MethodPost, h]

theorem step_full (c : Chan) (hfull : c.cap ≤ c.buf.length) (ev : Event) : step c ev = c := by
  have h : ¬ c.buf.length < c.cap := by omega
  cases ev with
  | request method =>
    unfold step reloadHandler Chan.send
    by_cases hm : method = MethodPost
    · simp [hm, h]
    · simp [hm]
  | sighup =>
    unfold step Chan.notify
    simp [h]

theorem runEvents_full (c : Chan) (hfull : c.cap ≤ c.buf.length) (evs : List Event) :
    runEvents c evs = c := by
  induction evs with
  | nil => rfl
  | cons ev evs ih =>
    unfold runEvents at ih ⊢
    rw [List.foldl_cons, step_full c hfull ev]
    exact ih

/-- C7, what the code does: the first `POST /reload` on the fresh channel enqueues a
`SIGHUP` and answers 200 "reloaded"; while that trigger is pending (or after a `SIGHUP`
signal filled the buffer) a `POST /reload` parks at its send and answers nothing, and no
later request or signal ever lets the send proceed, since nothing in `run` receives from
`onReload`. -/
theorem reload_post_parks_when_pending :
    reloadHandler onReloadInit "POST" =
      some ({ cap := 1, buf := [Signal.SIGHUP] }, { code := 200, error := "reloaded" }) ∧
    reloadHandler { cap := 1, buf := [Signal.SIGHUP] } "POST" = none ∧
    reloadHandler (onReloadInit.notify Signal.SIGHUP) "POST" = none ∧
    (∀ evs : List Event,
      reloadHandler (runEvents { cap := 1, buf := [Signal.SIGHUP] } evs) "POST" = none) := by
  refine ⟨post_on_empty, by decide, by decide, ?_⟩
  intro evs
  rw [runEvents_full _ (by decide) evs]
  decide

/-- C10: a request to `/reload` whose method is not `POST` is answered 405 "method not
allowed" and leaves the channel `onReload` as it was; whenever the handler changes the
channel, the method was `POST`. -/
theorem reload_method_guard (onReload : Chan) (method : String) :
    (method ≠ "POST" →
      reloadHandler onReload method =
        some (onReload, { code := 405, error := "method not allowed" }) ∧
      step onReload (Event.request method) = onReload) ∧
    (∀ ch reply, reloadHandler onReload method = some (ch, reply) → ch ≠ onReload →
      method = "POST" ∧ ch.buf = onReload.buf ++ [Signal.SIGHUP]) := by
  constructor
  · intro hm
    have hm2 : method ≠ MethodPost := hm
    constructor
    · unfold reloadHandler
      simp [hm2, httpError, StatusMethodNotAllowed]
    · unfold step reloadHandler
      simp [hm2]
  · intro ch reply h hne
    by_cases hm : method = MethodPost
    · refine ⟨hm, ?_⟩
      unfold reloadHandler Chan.send at h
      by_cases hl : onReload.buf.length < onReload.cap
      · simp [hm, hl] at h
        rw [← h.1]
      · simp [hm, hl] at h
    · unfold reloadHandler at h
      simp [hm] at h
      exact absurd h.1.symm hne

theorem reload_method_guard_witness :
    reloadHandler onReloadInit "GET" =
        some (onReloadInit, { code := 405, error := "method not allowed" }) ∧
      step onReloadInit (Event.request "GET") = onReloadInit :=
  (reload_method_guard onReloadInit "GET").1 (by decide)

end Tracker
